import Mathlib

/-!
Shallow embedding of the rule-verification and sub-rewrite computation engine
of the ast-grep repository (crates/cli/src/verify/mod.rs and
crates/config/src/transform/rewriters.rs), with theorems settling the claims
of the specification against it.

Underlying content bytes are modelled as `List Char` (the document codec
`decode_str` / `encode_bytes` moves between `String` and `List Char`).
Machine-level `usize` arithmetic appears only as `Nat` subtraction with
explicit bounds checks in the panic-tracking variant of the merge.
-/

namespace AstGrep

/-- `Edit` from ast_grep_core::source, as used by the rewriters module:
one textual change with absolute byte `position`, `deleted_length` bytes
removed and `inserted_text` bytes inserted. -/
structure Edit where
  position : Nat
  deleted_length : Nat
  inserted_text : List Char
deriving Repr, DecidableEq

/-- `make_edit` in rewriters.rs: walk the edits left to right keeping a
cursor `start` (relative to `offset`), copying unchanged slices of
`old_content`, appending inserted text, and finally the remaining tail.
Faithful to the Rust loop: the growing `new_content` and the cursor are the
fold state; slice indexing `old_content[start..pos]` is `drop`/`take`. -/
def make_edit (old_content : List Char) (edits : List Edit) (offset : Nat) :
    List Char :=
  let final := edits.foldl
    (fun (acc : List Char × Nat) edit =>
      let pos := edit.position - offset
      (acc.1 ++ ((old_content.drop acc.2).take (pos - acc.2)) ++
        edit.inserted_text,
       pos + edit.deleted_length))
    ([], 0)
  final.1 ++ old_content.drop final.2

/-- The cursor walk exactly as the specification words it: for each edit copy
`original_bytes[cursor .. edit.position - anchor]`, append the inserted text,
set the cursor past the deleted span, and after the last edit append the
remaining tail. Stated as a recursion on the edit list. -/
def mergeSpecWalk (old_content : List Char) (anchor : Nat) :
    List Edit → Nat → List Char
  | [], cursor => old_content.drop cursor
  | e :: rest, cursor =>
    ((old_content.drop cursor).take (e.position - anchor - cursor)) ++
      e.inserted_text ++
      mergeSpecWalk old_content anchor rest
        ((e.position - anchor) + e.deleted_length)

/-- Panic-tracking variant of `make_edit`: Rust slicing
`old_content[start..pos]` panics unless `start ≤ pos ≤ len`, and the `usize`
subtraction `edit.position - offset` requires `offset ≤ edit.position`
(debug builds panic on underflow; in release the wrapped value makes the
subsequent slice panic). `none` models reaching a panic. -/
def make_editCheckedGo (old_content : List Char) (offset : Nat) :
    List Edit → Nat → Option (List Char)
  | [], start =>
    if start ≤ old_content.length then some (old_content.drop start) else none
  | e :: rest, start =>
    if offset ≤ e.position ∧ start ≤ e.position - offset ∧
        e.position - offset ≤ old_content.length then
      match make_editCheckedGo old_content offset rest
          ((e.position - offset) + e.deleted_length) with
      | some tail =>
        some (((old_content.drop start).take (e.position - offset - start)) ++
          e.inserted_text ++ tail)
      | none => none
    else none

/-- Entry point of the panic-tracking merge: cursor starts at `0`. -/
def make_editChecked (old_content : List Char) (edits : List Edit)
    (offset : Nat) : Option (List Char) :=
  make_editCheckedGo old_content offset edits 0

/-- The invariant the merge step assumes: consecutive edits are
non-overlapping and non-decreasing in position
(`e₁.position + e₁.deleted_length ≤ e₂.position`). -/
def EditsSorted (edits : List Edit) : Prop :=
  List.Chain' (fun e₁ e₂ => e₁.position + e₁.deleted_length ≤ e₂.position)
    edits

/-- Rust `slice::chunks` by structural recursion on a fuel bounding the
list length: contiguous chunks of `size` elements each, the last chunk
possibly shorter. -/
def listChunksFuel (size : Nat) : Nat → List α → List (List α)
  | _, [] => []
  | 0, _ :: _ => []
  | fuel + 1, x :: xs =>
    ((x :: xs).take size) :: listChunksFuel size fuel ((x :: xs).drop size)

/-- Rust `slice::chunks`: contiguous chunks of `size` elements, the last
chunk possibly shorter. A zero size (which panics in Rust) yields no chunks;
it is never reached by `parallel_collect`. -/
def listChunks (size : Nat) (xs : List α) : List (List α) :=
  if size = 0 then [] else listChunksFuel size xs.length xs

/-- The chunk size `parallel_collect` computes:
`(cases.len() + cpu_count) / cpu_count`. -/
def chunkSizeOf (n cpu_count : Nat) : Nat := (n + cpu_count) / cpu_count

/-- `parallel_collect` in verify/mod.rs. `cpus` stands for
`num_cpus::get()` (available parallelism, always ≥ 1). The worker cap,
chunking and per-chunk sequential `filter_map` are as in the source; scoped
threads joined in chunk order are modelled by the deterministic
concatenation of per-chunk results. -/
def parallel_collect (cpus : Nat) (cases : List α) (filter_mapper : α → Option β) :
    List β :=
  let cpu_count := min cpus 12
  let chunk_size := chunkSizeOf cases.length cpu_count
  (listChunks chunk_size cases).flatMap fun chunk => chunk.filterMap filter_mapper

/-- Modelled from the spec: the tree matching engine (`ast_grep_core`) is
outside the two embedded source files; a syntax node of the matched document
carries its byte range start (`range().start`) and its children. -/
inductive Node where
  | mk (rangeStart : Nat) (children : List Node)

/-- `range().start` of a node. -/
def Node.rangeStart : Node → Nat
  | .mk s _ => s

/-- Children of a node. -/
def Node.children : Node → List Node
  | .mk _ cs => cs

mutual

/-- Modelled from the spec: `node.dfs()` (in `ast_grep_core`, outside the
embedded files) is a depth-first pre-order traversal yielding the node
itself plus all its descendants. -/
def Node.dfs : Node → List Node
  | .mk s cs => .mk s cs :: dfsList cs

/-- Pre-order traversal of a forest, in order. -/
def dfsList : List Node → List Node
  | [] => []
  | n :: ns => n.dfs ++ dfsList ns

end

/-- `MetaVariable` from ast_grep_core::meta_var: a single capture (with its
named flag), a multi capture, or the non-capturing variants that
`get_nodes_from_env` maps to no nodes. -/
inductive MetaVariable where
  | Capture (name : String) (named : Bool)
  | MultiCapture (name : String)
  | Dropped (named : Bool)
  | Multiple
deriving Repr, DecidableEq

/-- A compiled sub-rule (`RuleCore`). Its matching plus fix computation
(`rule.match_node` followed by `nm.make_edit(rule, fixer)`) is external to
the embedded files and is modelled as one function from a node to the edit
it produces on a successful match. -/
structure RuleCore where
  matchEdit : Node → Option Edit

/-- The rewrite context `Ctx`: the language hooks
(`pre_process_pattern`, `extract_meta_var`), the match environment
(`get_multiple_matches`, `get_match`, `get_var_bytes`) and the sub-rule
table `rewriters`, all external collaborators modelled as functions. -/
structure Ctx where
  pre_process_pattern : String → String
  extract_meta_var : String → Option MetaVariable
  get_multiple_matches : String → List Node
  get_match : String → Option Node
  get_var_bytes : MetaVariable → Option (List Char)
  rewriters : String → Option RuleCore

/-- `get_nodes_from_env` in rewriters.rs: a multi capture yields the
environment's matched sequence, a single capture zero or one node, anything
else no nodes. -/
def get_nodes_from_env (var : MetaVariable) (ctx : Ctx) : List Node :=
  match var with
  | .MultiCapture n => ctx.get_multiple_matches n
  | .Capture m _ =>
    match ctx.get_match m with
    | some n => [n]
    | none => []
  | _ => []

/-- `replace_one` in rewriters.rs: for every node of the DFS traversal of
`node`, try every rule in rule-list order, pushing one edit per successful
match. Faithful to the nested Rust loops as folds over a growing vector. -/
def replace_one (node : Node) (rules : List RuleCore) : List Edit :=
  node.dfs.foldl
    (fun edits child =>
      rules.foldl
        (fun edits rule =>
          match rule.matchEdit child with
          | some e => edits ++ [e]
          | none => edits)
        edits)
    []

/-- `find_and_make_edits` in rewriters.rs: flat-map `replace_one` over the
captured nodes. -/
def find_and_make_edits (nodes : List Node) (rules : List RuleCore) :
    List Edit :=
  nodes.flatMap fun n => replace_one n rules

/-- `D::Source::decode_str` for the string codec. -/
def decode_str (s : String) : List Char := s.data

/-- `D::Source::encode_bytes` followed by `.to_string()`. -/
def encode_bytes (bytes : List Char) : String := String.mk bytes

/-- The `join_by` branch of `Rewriters::compute` (lines 50–63): the first
edit's inserted text, then for every further edit the joiner followed by its
inserted text; no edit yields the empty byte vector. -/
def join_edits (edits : List Edit) (joiner : List Char) : List Char :=
  match edits with
  | [] => []
  | first :: rest =>
    first.inserted_text ++ rest.flatMap fun e => joiner ++ e.inserted_text

/-- The specification's wording of the `join_by` composition, for
comparison with the source's `join_edits`: emit each capture's first
produced inserted-text chunk, in capture order, separated by the joiner. -/
def join_first_chunk_per_capture (nodes : List Node) (rules : List RuleCore)
    (joiner : List Char) : List Char :=
  List.intercalate joiner
    (nodes.filterMap fun n => ((replace_one n rules).head?).map Edit.inserted_text)

/-- The rewriter declaration: `source` pattern, ordered `rewrites` ids and
optional `join_by` separator. -/
structure Rewriters where
  source : String
  rewrites : List String
  join_by : Option String

/-- `Rewriters::compute`: extract the metavariable from the pre-processed
source pattern, fetch its bound nodes (empty ⇒ `none`), resolve the rewrite
ids against the sub-rule table dropping unknown ids, produce the edits, and
compose the result either by joining inserted texts with `join_by` or by
splicing the edits into the captured bytes anchored at the first node's
range start. -/
def Rewriters.compute (self : Rewriters) (ctx : Ctx) : Option String :=
  let source := ctx.pre_process_pattern self.source
  match ctx.extract_meta_var source with
  | none => none
  | some var =>
    match get_nodes_from_env var ctx with
    | [] => none
    | n0 :: _ =>
      let start := n0.rangeStart
      match ctx.get_var_bytes var with
      | none => none
      | some bytes =>
        let rules := self.rewrites.filterMap ctx.rewriters
        let edits := find_and_make_edits (get_nodes_from_env var ctx) rules
        let rewritten :=
          match self.join_by with
          | some joiner => join_edits edits (decode_str joiner)
          | none => make_edit bytes edits start
        some (encode_bytes rewritten)

/-- A test case: rule id plus ordered valid and invalid code snippets. -/
structure TestCase where
  id : String
  valid : List String
  invalid : List String
deriving Repr, DecidableEq

/-- The golden expected output stored for one invalid snippet. -/
structure Snapshot where
  fixed : Option String
deriving Repr, DecidableEq

/-- A rule's stored snapshot sequence, one per invalid snippet. -/
abbrev TestSnapshots := List Snapshot

/-- Mapping from rule id to its snapshot sequence. -/
abbrev SnapshotCollection := List (String × TestSnapshots)

/-- The classification of one snippet: the five-way `CaseStatus` sum. -/
inductive CaseStatus where
  | Validated
  | Reported
  | Wrong (expected : Snapshot) (actual : Snapshot)
  | Missing (snippet : String)
  | Noisy (snippet : String)
deriving Repr, DecidableEq

/-- One test case's classification: rule id plus the statuses of its
snippets in order. -/
structure CaseResult where
  id : String
  cases : List CaseStatus
deriving Repr, DecidableEq

/-- An opaque compiled rule; its contents never matter to the embedded
control flow, only its presence in the rule table. -/
structure RuleConfig where
  mk ::
deriving Repr, DecidableEq

/-- `verify_test_case_simple` in verify/mod.rs: look the test case's rule id
up in the rule table — absence short-circuits to `none` via `?` — then
classify with or without snapshots. The classifiers
(`verify_test_case_with_snapshots`, `verify_test_case`) live in the
`test_case` submodule and are taken as function arguments. -/
def verify_test_case_simple
    (get_rule : String → Option RuleConfig)
    (verify_with_snapshots :
      TestCase → RuleConfig → Option TestSnapshots → CaseResult)
    (verify_plain : TestCase → RuleConfig → CaseResult)
    (test_case : TestCase) (snapshots : Option SnapshotCollection) :
    Option CaseResult :=
  match get_rule test_case.id with
  | none => none
  | some rule_config =>
    some (match snapshots with
      | some sc =>
        verify_with_snapshots test_case rule_config (sc.lookup test_case.id)
      | none => verify_plain test_case rule_config)

/-- Modelled from the spec: the snapshot reconciliation action the reporter
collects — "update all", "update none", or the interactive "update
selected" restricted to the accepted rule ids. -/
inductive SnapshotAction where
  | updateAll
  | updateNone
  | updateSelected (accepted : List String)
deriving Repr, DecidableEq

/-- The `actual` snapshot of a `Wrong` status, if any. -/
def wrongActual : CaseStatus → Option Snapshot
  | .Wrong _ actual => some actual
  | _ => none

/-- Per rule id, the new snapshot sequence an update would install: the
`actual` snapshots of its `Wrong` cases; ids with no `Wrong` case are
untouched. -/
def updatesFor (results : List CaseResult) : SnapshotCollection :=
  results.filterMap fun r =>
    let acts := r.cases.filterMap wrongActual
    if acts.isEmpty then none else some (r.id, acts)

/-- Overwrite the entries of `snapshots` named in `updates`, keeping
untouched ids as-is and appending newly created ids. -/
def mergeUpdates (snapshots updates : SnapshotCollection) :
    SnapshotCollection :=
  (snapshots.map fun p =>
    match updates.lookup p.fst with
    | some snaps => (p.fst, snaps)
    | none => p) ++
  updates.filter fun u => (snapshots.lookup u.fst).isNone

/-- Modelled from the spec: `SnapshotAction::update_snapshot_collection`
lives in the `snapshot` submodule, which is not among the embedded files;
"update none" is a no-op returning nothing, "update all" merges every
`Wrong` case's `actual` snapshot, "update selected" the accepted subset. -/
def SnapshotAction.update_snapshot_collection :
    SnapshotAction → SnapshotCollection → List CaseResult →
      Option SnapshotCollection
  | .updateNone, _, _ => none
  | .updateAll, snaps, results =>
    some (mergeUpdates snaps (updatesFor results))
  | .updateSelected accepted, snaps, results =>
    some (mergeUpdates snaps
      ((updatesFor results).filter fun u => accepted.contains u.fst))

/-- One snapshot file write: target path and full new content. -/
structure FileWrite where
  path : String
  content : TestSnapshots
deriving Repr, DecidableEq

/-- `write_merged_to_disk` in verify/mod.rs, with the file system modelled
by the list of writes performed: one file `<rule-id>-snapshot.yml` under
`path_map[id]` per merged entry, holding that id's full snapshot
sequence. -/
def write_merged_to_disk (merged : SnapshotCollection)
    (path_map : String → String) : List FileWrite :=
  merged.map fun p =>
    ⟨path_map p.fst ++ "/" ++ p.fst ++ "-snapshot.yml", p.snd⟩

/-- `apply_snapshot_action` in verify/mod.rs: with snapshot tests skipped,
or when `update_snapshot_collection` yields no merged collection, return
without writing; otherwise persist the merged collection. The result is the
list of file writes performed. -/
def apply_snapshot_action (action : SnapshotAction)
    (results : List CaseResult) (snapshots : Option SnapshotCollection)
    (path_map : String → String) : List FileWrite :=
  match snapshots with
  | none => []
  | some snapshots =>
    match action.update_snapshot_collection snapshots results with
    | none => []
    | some merged => write_merged_to_disk merged path_map

/-! ### Concrete instances for evaluating the definitions -/

/-- A concrete node: a parent at offset 0 with two childless children at
offsets 1 and 2. -/
def nodeC : Node := .mk 0 [.mk 1 [], .mk 2 []]

/-- A concrete sub-rule: matches the node at offset 1 with inserted text
`x` and the node at offset 2 with inserted text `y`. -/
def ruleC : RuleCore :=
  ⟨fun n =>
    if n.rangeStart = 1 then some ⟨1, 1, ['x']⟩
    else if n.rangeStart = 2 then some ⟨2, 1, ['y']⟩
    else none⟩

/-- A concrete rewrite context binding the single capture to `nodeC` with
bytes `abc`, and resolving every rewriter id to `ruleC`. -/
def ctxC : Ctx where
  pre_process_pattern := fun s => s
  extract_meta_var := fun _ => some (.Capture "A" true)
  get_multiple_matches := fun _ => []
  get_match := fun _ => some nodeC
  get_var_bytes := fun _ => some ['a', 'b', 'c']
  rewriters := fun _ => some ruleC

/-- A concrete rewriter declaration with `join_by` set to `","`. -/
def rwrJoin : Rewriters := ⟨"$A", ["r"], some ","⟩

/-- A concrete rewrite context whose environment binds no node to the
capture and holds no bytes or rules. -/
def ctxEmpty : Ctx where
  pre_process_pattern := fun s => s
  extract_meta_var := fun _ => some (.Capture "A" true)
  get_multiple_matches := fun _ => []
  get_match := fun _ => none
  get_var_bytes := fun _ => none
  rewriters := fun _ => none

/-! ### Helper lemmas about chunking -/

theorem listChunksFuel_flatten (size : Nat) (hs : 1 ≤ size) :
    ∀ (fuel : Nat) (xs : List α), xs.length ≤ fuel →
      (listChunksFuel size fuel xs).flatten = xs := by
  intro fuel
  induction fuel with
  | zero =>
    intro xs hxs
    cases xs with
    | nil => rfl
    | cons x xs => simp at hxs
  | succ fuel ih =>
    intro xs hxs
    cases xs with
    | nil => rfl
    | cons x xs =>
      simp only [listChunksFuel, List.flatten_cons]
      rw [ih ((x :: xs).drop size) (by simp at hxs ⊢; omega)]
      exact List.take_append_drop _ _

theorem listChunks_flatten (size : Nat) (hs : 1 ≤ size) (xs : List α) :
    (listChunks size xs).flatten = xs := by
  unfold listChunks
  rw [if_neg (by omega)]
  exact listChunksFuel_flatten size hs xs.length xs (Nat.le_refl _)

theorem flatMap_filterMap_flatten (l : List (List α)) (f : α → Option β) :
    (l.flatMap fun c => c.filterMap f) = l.flatten.filterMap f := by
  induction l with
  | nil => rfl
  | cons c cs ih => simp [List.filterMap_append, ih]

theorem listChunksFuel_mem_length_le (size : Nat) :
    ∀ (fuel : Nat) (xs : List α), ∀ c ∈ listChunksFuel size fuel xs,
      c.length ≤ size := by
  intro fuel
  induction fuel with
  | zero =>
    intro xs c hc
    cases xs <;> simp [listChunksFuel] at hc
  | succ fuel ih =>
    intro xs c hc
    cases xs with
    | nil => simp [listChunksFuel] at hc
    | cons x xs =>
      simp only [listChunksFuel, List.mem_cons] at hc
      rcases hc with h | h
      · subst h; exact List.length_take_le _ _
      · exact ih _ c h

theorem listChunks_mem_length_le (size : Nat) (xs : List α) :
    ∀ c ∈ listChunks size xs, c.length ≤ size := by
  intro c hc
  unfold listChunks at hc
  by_cases h : size = 0
  · rw [if_pos h] at hc; simp at hc
  · rw [if_neg h] at hc
    exact listChunksFuel_mem_length_le size xs.length xs c hc

theorem listChunksFuel_length (size : Nat) (hs : 1 ≤ size) :
    ∀ (fuel : Nat) (xs : List α), xs.length ≤ fuel →
      (listChunksFuel size fuel xs).length = (xs.length + size - 1) / size := by
  intro fuel
  induction fuel with
  | zero =>
    intro xs hxs
    cases xs with
    | nil =>
      simp only [listChunksFuel, List.length_nil]
      symm
      apply Nat.div_eq_of_lt
      omega
    | cons x xs => simp at hxs
  | succ fuel ih =>
    intro xs hxs
    cases xs with
    | nil =>
      simp only [listChunksFuel, List.length_nil]
      symm
      apply Nat.div_eq_of_lt
      omega
    | cons x xs =>
      simp only [listChunksFuel, List.length_cons]
      rw [ih ((x :: xs).drop size) (by simp at hxs ⊢; omega)]
      simp only [List.length_drop, List.length_cons]
      rcases Nat.lt_or_ge xs.length size with h | h
      · have h1 : xs.length + 1 - size = 0 := by omega
        have h2 : (0 + size - 1) / size = 0 := Nat.div_eq_of_lt (by omega)
        have h3 : (xs.length + 1 + size - 1) / size = 1 := by
          apply Nat.div_eq_of_lt_le <;> omega
        rw [h1, h2, h3]
      · have h1 : xs.length + 1 - size + size - 1 = xs.length := by omega
        have h2 : xs.length + 1 + size - 1 = xs.length + size := by omega
        rw [h1, h2, Nat.add_div_right _ (by omega)]

theorem listChunks_length (size : Nat) (hs : 1 ≤ size) (xs : List α) :
    (listChunks size xs).length = (xs.length + size - 1) / size := by
  unfold listChunks
  rw [if_neg (by omega)]
  exact listChunksFuel_length size hs xs.length xs (Nat.le_refl _)

theorem chunkSizeOf_pos (n c : Nat) (hc : 1 ≤ c) : 1 ≤ chunkSizeOf n c := by
  unfold chunkSizeOf
  rw [Nat.one_le_div_iff (by omega)]
  omega

theorem chunkSizeOf_mul_ge (n c : Nat) (hc : 1 ≤ c) :
    n < c * chunkSizeOf n c := by
  unfold chunkSizeOf
  have hmod := Nat.div_add_mod (n + c) c
  have hlt : (n + c) % c < c := Nat.mod_lt _ (by omega)
  omega

theorem parallel_collect_filterMap (cpus : Nat) (cases : List α)
    (f : α → Option β) (hcpus : 1 ≤ cpus) :
    parallel_collect cpus cases f = cases.filterMap f := by
  have hc : 1 ≤ min cpus 12 := by omega
  have hk : 1 ≤ chunkSizeOf cases.length (min cpus 12) := chunkSizeOf_pos _ _ hc
  show (listChunks (chunkSizeOf cases.length (min cpus 12)) cases).flatMap
      (fun chunk => chunk.filterMap f) = cases.filterMap f
  rw [flatMap_filterMap_flatten, listChunks_flatten _ hk]

/-! ### Theorems settling the claims -/

/-- C3: for every test-case list and classification function, the output of
`parallel_collect` equals sequential single-threaded processing of the
original case list in its original order, for any available parallelism
(which is always at least 1). Worker completion order plays no role: workers
are pure and joined in chunk order, so the embedding is deterministic
concatenation of per-chunk results. -/
theorem parallel_collect_eq_sequential (cpus : Nat) (cases : List α)
    (f : α → Option β) (hcpus : 1 ≤ cpus) :
    parallel_collect cpus cases f = cases.filterMap f :=
  parallel_collect_filterMap cpus cases f hcpus

/-- Witness for C3: 7 cases, available parallelism 5, classification keeping
odd cases. -/
theorem parallel_collect_eq_sequential_witness :
    1 ≤ 5 ∧ parallel_collect 5 [1, 2, 3, 4, 5, 6, 7]
      (fun n => if n % 2 = 1 then some (n * 10) else none) = [10, 30, 50, 70] :=
  ⟨by decide,
   (parallel_collect_eq_sequential 5 _ _ (by decide)).trans (by decide)⟩

/-- C1 counterexample: with 12 test cases on a machine with available
parallelism 12, the code's chunk size is `(12 + 12) / 12 = 2`, not
`ceil(12 / 12) = 1`, and only 6 chunks (hence 6 workers) arise, not
`min(available parallelism, 12) = 12`. -/
theorem parallel_collect_chunk_counterexample :
    chunkSizeOf 12 (min 12 12) = 2 ∧
    (12 + min 12 12 - 1) / min 12 12 = 1 ∧
    (listChunks (chunkSizeOf 12 (min 12 12)) (List.range 12)).length = 6 ∧
    chunkSizeOf 12 (min 12 12) ≠ (12 + min 12 12 - 1) / min 12 12 ∧
    (listChunks (chunkSizeOf 12 (min 12 12)) (List.range 12)).length ≠
      min 12 12 := by
  decide

/-- C1 amended: with `cpu_count = min(available parallelism, 12)`, the
runner uses chunk size `(n + cpu_count) / cpu_count` (which exceeds
`ceil(n / cpu_count)` exactly when `cpu_count` divides `n`), splits the
cases into `ceil(n / chunk_size)` contiguous chunks — never more than
`cpu_count` — of at most `chunk_size` cases each covering the list in
order, and each worker processes its chunk strictly sequentially, filtering
out `None` results. -/
theorem parallel_collect_chunk_layout (cpus : Nat) (cases : List α)
    (f : α → Option β) (hcpus : 1 ≤ cpus) :
    parallel_collect cpus cases f =
      (listChunks (chunkSizeOf cases.length (min cpus 12)) cases).flatMap
        (fun chunk => chunk.filterMap f) ∧
    (listChunks (chunkSizeOf cases.length (min cpus 12)) cases).flatten =
      cases ∧
    (∀ chunk ∈ listChunks (chunkSizeOf cases.length (min cpus 12)) cases,
      chunk.length ≤ chunkSizeOf cases.length (min cpus 12)) ∧
    (listChunks (chunkSizeOf cases.length (min cpus 12)) cases).length =
      (cases.length + chunkSizeOf cases.length (min cpus 12) - 1) /
        chunkSizeOf cases.length (min cpus 12) ∧
    (listChunks (chunkSizeOf cases.length (min cpus 12)) cases).length ≤
      min cpus 12 := by
  have hc : 1 ≤ min cpus 12 := by omega
  have hk : 1 ≤ chunkSizeOf cases.length (min cpus 12) := chunkSizeOf_pos _ _ hc
  refine ⟨rfl, listChunks_flatten _ hk _, listChunks_mem_length_le _ _,
    listChunks_length _ hk _, ?_⟩
  rw [listChunks_length _ hk]
  have hmul := chunkSizeOf_mul_ge cases.length (min cpus 12) hc
  rw [Nat.div_le_iff_le_mul_add_pred (by omega)]
  have hcomm : chunkSizeOf cases.length (min cpus 12) * min cpus 12 =
      min cpus 12 * chunkSizeOf cases.length (min cpus 12) :=
    Nat.mul_comm _ _
  omega

/-- Witness for C1's amended claim: 12 cases at available parallelism 12,
whose parallel output is the identity. -/
theorem parallel_collect_chunk_layout_witness :
    1 ≤ 12 ∧ parallel_collect 12 (List.range 12) some = List.range 12 :=
  ⟨by decide,
   ((parallel_collect_chunk_layout 12 (List.range 12) some (by decide)).1).trans
     (by decide)⟩

/-- C9: applying the snapshot action "update none" is a no-op:
`update_snapshot_collection` returns nothing, no merged collection is
produced, and no snapshot file write is performed. -/
theorem apply_snapshot_action_update_none_noop (results : List CaseResult)
    (snaps : SnapshotCollection) (snapshots : Option SnapshotCollection)
    (path_map : String → String) :
    SnapshotAction.updateNone.update_snapshot_collection snaps results =
      none ∧
    apply_snapshot_action .updateNone results snapshots path_map = [] := by
  refine ⟨rfl, ?_⟩
  cases snapshots <;> rfl

/-- C10: for every original byte sequence and anchor offset, merging the
empty edit list returns the original bytes unchanged, in the total
embedding and in the panic-tracking one. -/
theorem make_edit_empty_edits_identity (old_content : List Char)
    (offset : Nat) :
    make_edit old_content [] offset = old_content ∧
    make_editChecked old_content [] offset = some old_content := by
  refine ⟨rfl, ?_⟩
  simp [make_editChecked, make_editCheckedGo]

/-- The fold state of `make_edit` run from any accumulator and cursor
produces the accumulator followed by the cursor walk from that cursor. -/
theorem make_edit_foldl_walk (old_content : List Char) (offset : Nat) :
    ∀ (edits : List Edit) (acc : List Char) (start : Nat),
      (edits.foldl
        (fun (a : List Char × Nat) edit =>
          ((a.1 ++ ((old_content.drop a.2).take
              ((edit.position - offset) - a.2)) ++ edit.inserted_text,
            (edit.position - offset) + edit.deleted_length) :
            List Char × Nat))
        (acc, start)).1 ++
      old_content.drop
        ((edits.foldl
          (fun (a : List Char × Nat) edit =>
            ((a.1 ++ ((old_content.drop a.2).take
                ((edit.position - offset) - a.2)) ++ edit.inserted_text,
              (edit.position - offset) + edit.deleted_length) :
              List Char × Nat))
          (acc, start)).2) =
      acc ++ mergeSpecWalk old_content offset edits start := by
  intro edits
  induction edits with
  | nil =>
    intro acc start
    simp [mergeSpecWalk]
  | cons e rest ih =>
    intro acc start
    simp only [List.foldl_cons]
    rw [ih]
    simp [mergeSpecWalk, List.append_assoc]

/-- C4: for every original byte sequence, anchor offset, and edit list, the
edit-merge function returns exactly the bytes produced by the cursor walk
of the specification (stated for all edit lists, in particular the sorted
ones the claim quantifies over). -/
theorem make_edit_eq_cursor_walk (old_content : List Char)
    (edits : List Edit) (offset : Nat) :
    make_edit old_content edits offset =
      mergeSpecWalk old_content offset edits 0 := by
  have h := make_edit_foldl_walk old_content offset edits [] 0
  rw [List.nil_append] at h
  exact h

/-- Under the merge invariants, every slice access of the checked walk is in
bounds and it agrees with the cursor walk from the given start cursor. -/
theorem make_editCheckedGo_sorted (old_content : List Char) (offset : Nat) :
    ∀ (edits : List Edit) (start : Nat),
      EditsSorted edits →
      (∀ e ∈ edits, offset ≤ e.position) →
      (∀ e ∈ edits,
        e.position - offset + e.deleted_length ≤ old_content.length) →
      start ≤ old_content.length →
      (∀ e, edits.head? = some e → start ≤ e.position - offset) →
      make_editCheckedGo old_content offset edits start =
        some (mergeSpecWalk old_content offset edits start) := by
  intro edits
  induction edits with
  | nil =>
    intro start _ _ _ hstart _
    simp [make_editCheckedGo, mergeSpecWalk, hstart]
  | cons e rest ih =>
    intro start hsorted hoff hspan hstart hhead
    have he_off : offset ≤ e.position := hoff e (List.mem_cons_self _ _)
    have he_span :
        e.position - offset + e.deleted_length ≤ old_content.length :=
      hspan e (List.mem_cons_self _ _)
    have he_start : start ≤ e.position - offset := hhead e rfl
    obtain ⟨hrel, htail⟩ := List.chain'_cons'.mp hsorted
    have hrec := ih ((e.position - offset) + e.deleted_length) htail
      (fun e' he' => hoff e' (List.mem_cons_of_mem _ he'))
      (fun e' he' => hspan e' (List.mem_cons_of_mem _ he'))
      he_span
      (by
        intro e2 hh2
        have hR := hrel e2 hh2
        omega)
    simp only [make_editCheckedGo]
    rw [if_pos ⟨he_off, he_start, by omega⟩, hrec]
    simp [mergeSpecWalk]

/-- C5: the merge performs no runtime check of its invariants; under the
precondition that the edit list is pairwise non-overlapping and
non-decreasing in position, every position at least the anchor offset, and
every edited span within the original bytes, every slice access is in
bounds — the panic branch of the checked embedding is unreachable and the
result is that of the unchecked merge. -/
theorem make_editChecked_in_bounds (old_content : List Char)
    (edits : List Edit) (offset : Nat)
    (hsorted : EditsSorted edits)
    (hoff : ∀ e ∈ edits, offset ≤ e.position)
    (hspan : ∀ e ∈ edits,
      e.position - offset + e.deleted_length ≤ old_content.length) :
    make_editChecked old_content edits offset =
      some (make_edit old_content edits offset) := by
  unfold make_editChecked
  rw [make_editCheckedGo_sorted old_content offset edits 0 hsorted hoff hspan
    (Nat.zero_le _) (fun e _ => Nat.zero_le _)]
  have h := make_edit_foldl_walk old_content offset edits [] 0
  rw [List.nil_append] at h
  exact congrArg some h.symm

/-- Witness for C5: two in-bounds, non-overlapping edits over four bytes. -/
theorem make_editChecked_in_bounds_witness :
    make_editChecked ['a', 'b', 'c', 'd'] [⟨1, 1, ['X']⟩, ⟨3, 0, ['Y']⟩] 0 =
      some (make_edit ['a', 'b', 'c', 'd'] [⟨1, 1, ['X']⟩, ⟨3, 0, ['Y']⟩] 0) :=
  make_editChecked_in_bounds _ _ _
    (by simp [EditsSorted, List.chain'_cons]) (by decide) (by decide)

/-- C6: when the metavariable extracted from `rewriters.source` has no bound
nodes in the environment, `Rewriters::compute` returns nothing — `none`, not
an empty string. -/
theorem compute_none_when_no_nodes (r : Rewriters) (ctx : Ctx)
    (var : MetaVariable)
    (hvar : ctx.extract_meta_var (ctx.pre_process_pattern r.source) =
      some var)
    (hnodes : get_nodes_from_env var ctx = []) :
    r.compute ctx = none ∧ r.compute ctx ≠ some "" := by
  have h : r.compute ctx = none := by
    simp [Rewriters.compute, hvar, hnodes]
  exact ⟨h, by simp [h]⟩

/-- Witness for C6: a context whose environment binds no node to the
extracted capture. -/
theorem compute_none_when_no_nodes_witness :
    Rewriters.compute ⟨"$A", [], none⟩ ctxEmpty = none ∧
    Rewriters.compute ⟨"$A", [], none⟩ ctxEmpty ≠ some "" :=
  compute_none_when_no_nodes ⟨"$A", [], none⟩ ctxEmpty (.Capture "A" true)
    rfl rfl

theorem append_flatMap_eq_intercalate (j : List Char) :
    ∀ (xs : List (List Char)) (x : List Char),
      x ++ xs.flatMap (fun c => j ++ c) = List.intercalate j (x :: xs) := by
  intro xs
  induction xs with
  | nil => intro x; simp [List.intercalate, List.intersperse]
  | cons y ys ih =>
    intro x
    have h := ih y
    simp only [List.flatMap_cons, List.intercalate, List.intersperse] at *
    simp [← h, List.flatten]

theorem join_edits_eq_intercalate (edits : List Edit) (j : List Char) :
    join_edits edits j =
      List.intercalate j (edits.map Edit.inserted_text) := by
  cases edits with
  | nil => simp [join_edits, List.intercalate, List.intersperse]
  | cons first rest =>
    simp only [join_edits, List.map_cons]
    rw [← append_flatMap_eq_intercalate]
    congr 1
    simp [List.flatMap_map]

/-- C2 counterexample: a single capture whose subtree yields two edits. The
code emits both inserted texts joined (`"x,y"`), whereas the claim's
"each capture's first produced inserted-text chunk" yields only `"x"`. -/
theorem compute_join_by_counterexample :
    Rewriters.compute rwrJoin ctxC = some "x,y" ∧
    encode_bytes (join_first_chunk_per_capture [nodeC] [ruleC]
      (decode_str ",")) = "x" ∧
    ("x,y" : String) ≠ "x" := by
  refine ⟨by decide, by decide, by decide⟩

/-- C2 amended: when `join_by` is present, no edits are spliced into the
original content; instead every produced edit's inserted-text chunk is
emitted — captures in order, within each capture in DFS/rule order —
separated by the `join_by` string between entries. -/
theorem compute_join_by_concats_all_edits (r : Rewriters) (ctx : Ctx)
    (var : MetaVariable) (n0 : Node) (ns : List Node) (bytes : List Char)
    (joiner : String)
    (hjoin : r.join_by = some joiner)
    (hvar : ctx.extract_meta_var (ctx.pre_process_pattern r.source) =
      some var)
    (hnodes : get_nodes_from_env var ctx = n0 :: ns)
    (hbytes : ctx.get_var_bytes var = some bytes) :
    r.compute ctx = some (encode_bytes (List.intercalate (decode_str joiner)
      ((find_and_make_edits (n0 :: ns)
        (r.rewrites.filterMap ctx.rewriters)).map Edit.inserted_text))) := by
  simp [Rewriters.compute, hvar, hnodes, hbytes, hjoin,
    join_edits_eq_intercalate]

/-- Witness for C2's amended claim at the concrete join context. -/
theorem compute_join_by_concats_all_edits_witness :
    Rewriters.compute rwrJoin ctxC = some (encode_bytes
      (List.intercalate (decode_str ",")
        ((find_and_make_edits [nodeC]
          (rwrJoin.rewrites.filterMap ctxC.rewriters)).map
            Edit.inserted_text))) :=
  compute_join_by_concats_all_edits rwrJoin ctxC (.Capture "A" true) nodeC []
    ['a', 'b', 'c'] "," rfl rfl rfl rfl

theorem rules_foldl_filterMap (c : Node) :
    ∀ (rules : List RuleCore) (acc : List Edit),
      rules.foldl (fun edits rule =>
        match rule.matchEdit c with
        | some e => edits ++ [e]
        | none => edits) acc =
      acc ++ rules.filterMap (fun rule => rule.matchEdit c) := by
  intro rules
  induction rules with
  | nil => intro acc; simp
  | cons rule rs ih =>
    intro acc
    simp only [List.foldl_cons, List.filterMap_cons]
    cases h : rule.matchEdit c with
    | none => simp [h, ih]
    | some e => simp [h, ih]

theorem dfs_foldl_flatMap (rules : List RuleCore) :
    ∀ (l : List Node) (acc : List Edit),
      l.foldl (fun edits child =>
        rules.foldl (fun edits rule =>
          match rule.matchEdit child with
          | some e => edits ++ [e]
          | none => edits) edits) acc =
      acc ++ l.flatMap (fun child =>
        rules.filterMap fun rule => rule.matchEdit child) := by
  intro l
  induction l with
  | nil => intro acc; simp
  | cons c cs ih =>
    intro acc
    simp only [List.foldl_cons]
    rw [rules_foldl_filterMap c rules acc, ih]
    simp [List.append_assoc]

theorem replace_one_eq_dfs_flatMap (node : Node) (rules : List RuleCore) :
    replace_one node rules =
      node.dfs.flatMap fun child =>
        rules.filterMap fun rule => rule.matchEdit child := by
  unfold replace_one
  rw [dfs_foldl_flatMap rules node.dfs []]
  simp

theorem filterMap_filter_isSome (f : String → Option RuleCore) :
    ∀ l : List String,
      (l.filter fun id => (f id).isSome).filterMap f = l.filterMap f := by
  intro l
  induction l with
  | nil => rfl
  | cons a l ih =>
    simp only [List.filter_cons]
    cases h : f a with
    | none => simp [h, List.filterMap_cons, ih]
    | some v => simp [h, List.filterMap_cons, ih]

/-- C7: rewriter ids with no entry in the sub-rule table are silently
dropped — restricting `rewrites` to resolvable ids changes nothing — and
the produced edits come from a depth-first traversal of each captured node
(the node and all descendants), testing each resolvable sub-rule against
every visited node in rule-list order, one edit per successful match. -/
theorem compute_unknown_ids_dropped_dfs_edits (r : Rewriters) (ctx : Ctx)
    (nodes : List Node) (rules : List RuleCore) :
    Rewriters.compute
      ⟨r.source, r.rewrites.filter (fun id => (ctx.rewriters id).isSome),
        r.join_by⟩ ctx = r.compute ctx ∧
    find_and_make_edits nodes rules =
      nodes.flatMap fun n =>
        n.dfs.flatMap fun child =>
          rules.filterMap fun rule => rule.matchEdit child := by
  constructor
  · simp [Rewriters.compute, filterMap_filter_isSome ctx.rewriters]
  · simp only [find_and_make_edits, replace_one_eq_dfs_flatMap]

/-- C8: a test case whose rule id has no matching entry in the rule table
classifies to `None` — no `CaseResult`, no `CaseStatus` — and the parallel
run filters it out of the collected results without failing. -/
theorem verify_test_case_simple_none_unknown_rule
    (get_rule : String → Option RuleConfig)
    (vws : TestCase → RuleConfig → Option TestSnapshots → CaseResult)
    (vp : TestCase → RuleConfig → CaseResult)
    (tc : TestCase) (snapshots : Option SnapshotCollection)
    (cpus : Nat) (hcpus : 1 ≤ cpus)
    (h : get_rule tc.id = none) :
    verify_test_case_simple get_rule vws vp tc snapshots = none ∧
    parallel_collect cpus [tc]
      (fun t => verify_test_case_simple get_rule vws vp t snapshots) =
      [] := by
  have h1 : verify_test_case_simple get_rule vws vp tc snapshots = none := by
    simp [verify_test_case_simple, h]
  refine ⟨h1, ?_⟩
  rw [parallel_collect_filterMap cpus _ _ hcpus]
  simp [List.filterMap_cons, h1]

/-- Witness for C8: a test case referencing `no-such-rule` against an empty
rule table. -/
theorem verify_test_case_simple_none_unknown_rule_witness :
    verify_test_case_simple (fun _ => none)
      (fun _ _ _ => ⟨"t", []⟩) (fun _ _ => ⟨"t", []⟩)
      ⟨"no-such-rule", [], []⟩ none = none ∧
    parallel_collect 8 [(⟨"no-such-rule", [], []⟩ : TestCase)]
      (fun t => verify_test_case_simple (fun _ => none)
        (fun _ _ _ => ⟨"t", []⟩) (fun _ _ => ⟨"t", []⟩) t none) = [] :=
  verify_test_case_simple_none_unknown_rule (fun _ => none)
    (fun _ _ _ => ⟨"t", []⟩) (fun _ _ => ⟨"t", []⟩)
    ⟨"no-such-rule", [], []⟩ none 8 (by decide) rfl

end AstGrep
